import Mathlib

/-!
Shallow embedding of the as-mutable repository (src/as-mutable.ts and
src/im-mutable.ts) and verification of the frozen claims about it.

The embedding models the JavaScript heap explicitly: a heap is a list of
heap objects, an address is an index into that list, and reference
identity is address equality.  Plain containers (objects and arrays) are
one kind of heap object; a Facade together with its ProxyWorker is the
other kind (the proxy and its worker are allocated together, are in
one-to-one correspondence, and are never re-pointed, so they are modelled
as a single cell).  Property keys are strings; the hidden MUTABLE symbol
of the source is unforgeable, which the model reflects by making the
facade check a heap-cell test rather than a key lookup.

Machine-level caveats of the model, stated once here:
* the per-key operation arrays of the source (records maps key to an
  array of ops and only ever reads the last element) are modelled as a
  key-to-last-op association list in map insertion order, which is
  observationally identical;
* JavaScript getters are modelled as returning a fixed stored value
  (field getv of a descriptor); setters and exotic behaviours of
  prototype-chain assignment during materialization are not modelled, and
  no claim exercises them;
* numeric-index reordering of Reflect.ownKeys is not modelled: the key
  order of a container is the order of its property list.
-/

abbrev Addr := Nat
abbrev Key := String

/-- Primitive JavaScript values (no floats are needed by any claim). -/
inductive Prim where
  | undefined
  | null
  | bool (b : Bool)
  | int (n : Int)
  | str (s : String)
  deriving DecidableEq, Repr

/-- A JavaScript value: a primitive, a reference to a heap object, or a
function (identified by an id; functions are opaque to this library). -/
inductive Val where
  | prim (p : Prim)
  | ref (a : Addr)
  | fn (id : Nat)
  deriving DecidableEq, Repr

/-- A property descriptor.  value some v is a data property; getv models
an accessor property whose getter returns the fixed value v (getv none
with value none is an accessor without a getter, which reads as
undefined).  Absent boolean attributes are modelled as false, matching
how the source only ever tests their truthiness. -/
structure Desc where
  value : Option Val := none
  getv : Option Val := none
  writable : Bool := false
  enumerable : Bool := false
  configurable : Bool := false
  deriving DecidableEq, Repr

/-- The buffered operations of the worker log (enum ops of the source).
DEL stores no descriptor: the source logs [ops.DEL, undefined]. -/
inductive Op where
  | get (d : Desc)
  | set (d : Desc)
  | del
  | defp (d : Desc)
  deriving DecidableEq, Repr

/-- The descriptor component of a logged operation; none for DEL exactly
as the source stores undefined there. -/
def Op.desc? : Op → Option Desc
  | .get d => some d
  | .set d => some d
  | .del => none
  | .defp d => some d

def Op.isDel : Op → Bool
  | .del => true
  | _ => false

/-- A plain container: object-like (isArr false) or array-like, with an
ordered own-property list and a prototype value. -/
structure ContData where
  isArr : Bool := false
  props : List (Key × Desc) := []
  proto : Val := Val.prim .null
  deriving DecidableEq, Repr

/-- The state of a ProxyWorker: the origin (client) address, the
prototype binding captured at construction (and mutable through the
setPrototypeOf trap), and the operation log in insertion order. -/
structure WorkerData where
  client : Addr
  proto : Val
  records : List (Key × Op) := []
  deriving DecidableEq, Repr

/-- A heap object: a plain container, or a Facade fused with its worker. -/
inductive HObj where
  | cont (c : ContData)
  | fac (w : WorkerData)
  deriving DecidableEq, Repr

abbrev Heap := List HObj

def contAt (h : Heap) (a : Addr) : Option ContData :=
  match h[a]? with
  | some (.cont c) => some c
  | _ => none

def facAt (h : Heap) (a : Addr) : Option WorkerData :=
  match h[a]? with
  | some (.fac w) => some w
  | _ => none

/-- Own-property descriptor lookup on a plain container
(Reflect.getOwnPropertyDescriptor on the client). -/
def ContData.desc? (c : ContData) (k : Key) : Option Desc :=
  c.props.lookup k

/-- Value produced by reading an own property of a plain container: the
data value, or the getter result of an accessor, or undefined. -/
def contGetOwn (d : Desc) : Val :=
  d.value.getD (d.getv.getD (.prim .undefined))

/-- JavaScript truthiness, used by the source in phrases like
(this.proto and this.proto[key]). -/
def truthy : Val → Bool
  | .prim .undefined => false
  | .prim .null => false
  | .prim (.bool b) => b
  | .prim (.int n) => !(n == 0)
  | .prim (.str s) => !(s == "")
  | .ref _ => true
  | .fn _ => true

/-- isPrimitive / isFunction / isDuplicable of the source collapsed to
the model value type: only references to heap objects are duplicable. -/
def isDuplicable : Val → Bool
  | .ref _ => true
  | _ => false

/-- isMutable of the source: target is truthy and carries the hidden
MUTABLE tag, i.e. it is a reference to a Facade cell. -/
def isMutableV (h : Heap) : Val → Bool
  | .ref a => (facAt h a).isSome
  | _ => false

/-- The prototype captured at wrap time (client.__proto__ in
as-mutable.ts, Reflect.getPrototypeOf(client) in im-mutable.ts; both
read the prototype slot of the plain container being wrapped). -/
def protoOf (h : Heap) (a : Addr) : Val :=
  match contAt h a with
  | some c => c.proto
  | none => .prim .undefined

/-- Entry function asMutable (mutable in im-mutable.ts): identity on
non-duplicable values and on already-wrapped values, otherwise allocate
a fresh Facade (with its worker) over the target. -/
def asMutable (h : Heap) (v : Val) : Heap × Val :=
  if !(isDuplicable v) then (h, v)
  else if isMutableV h v then (h, v)
  else
    match v with
    | .ref a => (h ++ [.fac { client := a, proto := protoOf h a, records := [] }], .ref h.length)
    | _ => (h, v)

/-- ProxyWorker.query: the last logged operation for a key.  The log is
an association list from key to its current last operation. -/
def query (w : WorkerData) (k : Key) : Option Op :=
  w.records.lookup k

/-- ProxyWorker.addOp: push an operation for a key.  Since only the last
operation per key is ever read, this replaces the entry in place (keeping
the map insertion order of the key) or appends a new entry. -/
def addOp (w : WorkerData) (k : Key) (op : Op) : WorkerData :=
  { w with
    records :=
      if (w.records.lookup k).isSome then
        w.records.map (fun e => if e.1 == k then (k, op) else e)
      else
        w.records ++ [(k, op)] }

/-- Property access on plain values walking the prototype chain, with
fuel bounding the chain length ([[Get]] restricted to the shapes this
library produces; a Facade met on a chain is outside the model and no
claim exercises it). -/
def jsGetF : Nat → Heap → Val → Key → Option Val
  | 0, _, _, _ => none
  | n + 1, h, v, k =>
    match v with
    | .ref a =>
      match h[a]? with
      | some (.cont c) =>
        match c.desc? k with
        | some d => some (contGetOwn d)
        | none => jsGetF n h c.proto k
      | _ => none
    | _ => some (.prim .undefined)

/-- Reflect.has walking own keys then the prototype chain, with fuel.
Reflect.has on a non-object throws in JavaScript; the model returns
false there and no claim exercises that corner. -/
def reflectHasF : Nat → Heap → Val → Key → Option Bool
  | 0, _, _, _ => none
  | n + 1, h, v, k =>
    match v with
    | .ref a =>
      match h[a]? with
      | some (.cont c) =>
        if (c.desc? k).isSome then some true else reflectHasF n h c.proto k
      | _ => some false
    | _ => some false

/-- ProxyWorker.getOwnPropertyDescriptor: the descriptor of the last
logged operation if any (undefined for DEL), else the own descriptor of
the client. -/
def workerGOPD (h : Heap) (w : WorkerData) (k : Key) : Option Desc :=
  match query w k with
  | some op => op.desc?
  | none => (contAt h w.client).bind (fun c => c.desc? k)

/-- ProxyWorker.get of as-mutable.ts.  Logged key: return desc.value of
the last operation (undefined when the descriptor or its value field is
absent).  Unlogged own key: wrap the read value; if the wrapped value is
a Facade and the own descriptor is a data descriptor, record a GET whose
descriptor is the own descriptor with its value replaced by the Facade.
Unlogged non-own key: this.proto and this.proto[key]. -/
def workerGet (n : Nat) (h : Heap) (w : WorkerData) (k : Key) :
    Option (Heap × WorkerData × Val) :=
  match query w k with
  | some op =>
    some (h, w,
      match op.desc? with
      | some d => d.value.getD (.prim .undefined)
      | none => .prim .undefined)
  | none =>
    match contAt h w.client with
    | some c =>
      match c.desc? k with
      | some d =>
        match asMutable h (contGetOwn d) with
        | (h2, v2) =>
          if isMutableV h2 v2 && d.value.isSome then
            some (h2, addOp w k (.get { d with value := some v2 }), v2)
          else
            some (h2, w, v2)
      | none =>
        if truthy w.proto then
          (jsGetF n h w.proto k).map (fun v => (h, w, v))
        else
          some (h, w, w.proto)
    | none => none

/-- ProxyWorker.set: wrap the value, build a fresh fully-permissive data
descriptor around it, record a SET. -/
def workerSet (h : Heap) (w : WorkerData) (k : Key) (v : Val) :
    Heap × WorkerData :=
  let p := asMutable h v
  (p.1, addOp w k (.set { value := some p.2, writable := true, enumerable := true, configurable := true }))

/-- ProxyWorker.del: no effective descriptor means success as a no-op; a
configurable descriptor means record DEL and succeed; otherwise fail and
change nothing. -/
def workerDel (h : Heap) (w : WorkerData) (k : Key) : WorkerData × Bool :=
  match workerGOPD h w k with
  | none => (w, true)
  | some d => if d.configurable then (addOp w k .del, true) else (w, false)

/-- ProxyWorker.has of as-mutable.ts: unlogged keys consult the client
own descriptor and Reflect.has on the captured prototype binding; a DEL
entry consults only that prototype binding; any other entry is true. -/
def workerHas (n : Nat) (h : Heap) (w : WorkerData) (k : Key) : Option Bool :=
  match query w k with
  | some op =>
    if op.isDel then reflectHasF n h w.proto k else some true
  | none =>
    let own := ((contAt h w.client).bind (fun c => c.desc? k)).isSome
    (reflectHasF n h w.proto k).map (fun b => own || b)

/-- The defineProperty trap shared by both variants.  The source reads
oldDesc.configurable without checking that oldDesc exists, so when the
key has no effective descriptor (absent from both log and origin, or
last logged as DEL) the trap throws a TypeError; the model returns
Except.error for that access. -/
def definePropertyTrap (h : Heap) (w : WorkerData) (k : Key) (d : Desc) :
    Except Unit (WorkerData × Bool) :=
  match workerGOPD h w k with
  | none => .error ()
  | some od =>
    if od.configurable then .ok (addOp w k (.defp d), true) else .ok (w, false)

/-- ProxyWorker.ownKeys of as-mutable.ts: start from the own keys of the
client as an insertion-ordered set, then per logged key delete it on DEL
and add it (keeping its position if already present) otherwise. -/
def workerOwnKeys (h : Heap) (w : WorkerData) : List Key :=
  let orig := match contAt h w.client with
    | some c => c.props.map (fun e => e.1)
    | none => []
  w.records.foldl
    (fun acc e =>
      match e.2 with
      | .del => acc.erase e.1
      | _ => if acc.contains e.1 then acc else acc ++ [e.1])
    orig

/-! ### The im-mutable.ts variant of the worker operations

The worker of im-mutable.ts shares query, addOp, getOwnPropertyDescriptor,
set, del and the defineProperty trap with as-mutable.ts; its get, has and
ownKeys differ and are embedded separately below. -/

/-- ProxyWorker.get of im-mutable.ts.  A logged key destructures the last
operation into [opcode, desc] and reads desc.value without a guard, so a
DEL entry (whose stored descriptor is undefined) raises a TypeError,
modelled as Except.error.  Unlogged keys behave as in as-mutable.ts
except that the fallback is a full property access on the client. -/
def imWorkerGet (n : Nat) (h : Heap) (w : WorkerData) (k : Key) :
    Option (Except Unit (Heap × WorkerData × Val)) :=
  match query w k with
  | some op =>
    match op.desc? with
    | none => some (.error ())
    | some d => some (.ok (h, w, d.value.getD (.prim .undefined)))
  | none =>
    match contAt h w.client with
    | some c =>
      match c.desc? k with
      | some d =>
        match asMutable h (contGetOwn d) with
        | (h2, v2) =>
          if isMutableV h2 v2 && d.value.isSome then
            some (.ok (h2, addOp w k (.get { d with value := some v2 }), v2))
          else
            some (.ok (h2, w, v2))
      | none => (jsGetF n h (.ref w.client) k).map (fun v => .ok (h, w, v))
    | none => none

/-- ProxyWorker.has of im-mutable.ts: unlogged keys use Reflect.has on
the client (own key or live prototype chain of the origin); a DEL entry
is true only when the client has the key but not as an own key; any
other entry is true. -/
def imHas (n : Nat) (h : Heap) (w : WorkerData) (k : Key) : Option Bool :=
  match query w k with
  | some op =>
    if op.isDel then
      (reflectHasF n h (.ref w.client) k).map
        (fun b => b && !(((contAt h w.client).bind (fun c => c.desc? k)).isSome))
    else some true
  | none => reflectHasF n h (.ref w.client) k

/-- ProxyWorker.ownKeys of im-mutable.ts: push every original key whose
last logged operation is not DEL, then additionally push every logged
key whose last operation is not DEL.  A key that is both original and
logged is pushed twice. -/
def imOwnKeys (h : Heap) (w : WorkerData) : List Key :=
  let orig : List Key := match contAt h w.client with
    | some c => c.props.map (fun e => e.1)
    | none => []
  (orig.filter (fun k =>
      match w.records.lookup k with
      | some op => !op.isDel
      | none => true))
    ++ (w.records.filter (fun e => !e.2.isDel)).map (fun e => e.1)

/-! ### The materializer getValue

Materialization in the source builds a fresh shallow duplicate of the
origin ({...client} or [...client]) and patches it in place; the fresh
duplicate is a brand-new allocation that nothing else references, so the
model represents it structurally: a MatVal is either a pre-existing value
returned by reference (old) or a freshly allocated container (fresh).
A fresh container is never reference-identical to any pre-existing value.
Each property of a fresh container carries its materialized value (for a
data property) next to the remaining descriptor attributes; the value
field of that residual descriptor is unused and kept none. -/

inductive MatVal where
  | old (v : Val)
  | fresh (isArr : Bool) (props : List (Key × Option MatVal × Desc)) (proto : Val)

/-- Reference comparison of a materialized value against a pre-existing
value (the oldValue !== newValue test of the source): a fresh allocation
is different from every pre-existing value. -/
def matEq : MatVal → Val → Bool
  | .old v, u => v == u
  | .fresh _ _ _, _ => false

/-- The shallow duplicate {...client}: own enumerable properties become
fully-permissive data properties holding the read value. -/
def spreadProps (c : ContData) : List (Key × Option MatVal × Desc) :=
  c.props.filterMap (fun e =>
    if e.2.enumerable then
      some (e.1, some (MatVal.old (contGetOwn e.2)),
        ({ writable := true, enumerable := true, configurable := true } : Desc))
    else none)

/-- delete result[key] on the duplicate. -/
def matDelete (props : List (Key × Option MatVal × Desc)) (k : Key) :
    List (Key × Option MatVal × Desc) :=
  props.filter (fun e => !(e.1 == k))

/-- Object.defineProperty(result, key, desc) on the duplicate: install
the logged descriptor verbatim (merging with an existing descriptor of a
partially specified definition is outside the model; the log stores the
descriptor the trap received). -/
def matDefine (props : List (Key × Option MatVal × Desc)) (k : Key) (d : Desc) :
    List (Key × Option MatVal × Desc) :=
  if (props.lookup k).isSome then
    props.map (fun e => if e.1 == k then (k, d.value.map MatVal.old, { d with value := none }) else e)
  else
    props ++ [(k, d.value.map MatVal.old, { d with value := none })]

/-- result[key] = newValue on the duplicate: update the value of an
existing own data property keeping its attributes, or create a fresh
fully-permissive data property. -/
def matAssign (props : List (Key × Option MatVal × Desc)) (k : Key) (mv : MatVal) :
    List (Key × Option MatVal × Desc) :=
  if (props.lookup k).isSome then
    props.map (fun e => if e.1 == k then (k, some mv, e.2.2) else e)
  else
    props ++ [(k, some mv, ({ writable := true, enumerable := true, configurable := true } : Desc))]

/-- The forEach over the log inside getValue, parametrized by the child
materializer gv (the recursive getValue call) and the origin reader jg
(the access client[key]).  The boolean component is the mutated flag. -/
def matFold (gv : Val → Option MatVal) (jg : Key → Option Val) :
    List (Key × Op) → List (Key × Option MatVal × Desc) × Bool →
    Option (List (Key × Option MatVal × Desc) × Bool)
  | [], st => some st
  | (k, op) :: rest, (props, mtd) =>
    match op with
    | .del => matFold gv jg rest (matDelete props k, true)
    | .defp d => matFold gv jg rest (matDefine props k d, true)
    | .get d =>
      match jg k, gv (d.value.getD (.prim .undefined)) with
      | some oldV, some newV =>
        matFold gv jg rest (matAssign props k newV, mtd || !(matEq newV oldV))
      | _, _ => none
    | .set d =>
      match jg k, gv (d.value.getD (.prim .undefined)) with
      | some oldV, some newV =>
        matFold gv jg rest (matAssign props k newV, mtd || !(matEq newV oldV))
      | _, _ => none

/-- getValue of as-mutable.ts (im-mutable.ts is identical except that it
does not restore the prototype binding onto the duplicate, which never
affects which reference is returned).  Non-Facade values are returned
unchanged; an empty log returns the origin by reference; otherwise the
log is replayed onto the shallow duplicate and the origin is returned by
reference exactly when the mutated flag never rose.  Fuel bounds the
recursion depth (the source recurses without bound on cyclic data). -/
def getValueF : Nat → Heap → Val → Option MatVal
  | 0, _, _ => none
  | n + 1, h, v =>
    if !(isMutableV h v) then some (.old v)
    else
      match v with
      | .ref a =>
        match facAt h a with
        | some w =>
          match contAt h w.client with
          | some c =>
            if w.records.isEmpty then some (.old (.ref w.client))
            else
              match matFold (getValueF n h) (jsGetF n h (.ref w.client)) w.records (spreadProps c, false) with
              | some (props, mutated) =>
                some (if mutated then .fresh c.isArr props w.proto else .old (.ref w.client))
              | none => none
          | none => none
        | none => none
      | _ => none

/-! ### The Facade operation surface

One step of interaction with a Facade: each constructor is one proxy trap
of the source.  applyFOp is total in the heap: a TypeError, exhausted
fuel or a non-Facade target leave the heap unchanged and report err. -/

inductive FOp where
  | read (k : Key)
  | write (k : Key) (v : Val)
  | delOp (k : Key)
  | defineOp (k : Key) (d : Desc)
  | hasOp (k : Key)
  | keysOp
  | getProtoOp
  | setProtoOp (p : Val)
  deriving DecidableEq, Repr

/-- Result of one Facade operation. -/
inductive FRes where
  | val (v : Val)
  | bool (b : Bool)
  | keys (l : List Key)
  | err
  deriving DecidableEq, Repr

/-- Overwrite the worker cell behind a Facade address. -/
def setWorker (h : Heap) (a : Addr) (w : WorkerData) : Heap :=
  h.set a (.fac w)

/-- One Facade operation against the Facade at address a, routed to the
worker exactly as the proxy handler of as-mutable.ts routes its traps. -/
def applyFOp (n : Nat) (h : Heap) (a : Addr) (op : FOp) : Heap × FRes :=
  match facAt h a with
  | none => (h, .err)
  | some w =>
    match op with
    | .read k =>
      match workerGet n h w k with
      | some (h1, w1, v) => (setWorker h1 a w1, .val v)
      | none => (h, .err)
    | .write k v =>
      let p := workerSet h w k v
      (setWorker p.1 a p.2, .bool true)
    | .delOp k =>
      let p := workerDel h w k
      (setWorker h a p.1, .bool p.2)
    | .defineOp k d =>
      match definePropertyTrap h w k d with
      | .ok (w1, b) => (setWorker h a w1, .bool b)
      | .error _ => (h, .err)
    | .hasOp k =>
      match workerHas n h w k with
      | some b => (h, .bool b)
      | none => (h, .err)
    | .keysOp => (h, .keys (workerOwnKeys h w))
    | .getProtoOp => (h, .val w.proto)
    | .setProtoOp p => (setWorker h a { w with proto := p }, .bool true)

/-- A whole session: a sequence of Facade operations, each aimed at some
Facade address (the wrapped origin or any nested Facade obtained from
reads), applied left to right. -/
def applySeq (n : Nat) : List (Addr × FOp) → Heap → Heap
  | [], h => h
  | e :: rest, h => applySeq n rest (applyFOp n h e.1 e.2).1

/-! ### Well-formedness: every address stored anywhere in the heap is a
valid address.  Needed only to reason about heap extension. -/

def valWF (m : Nat) : Val → Bool
  | .ref a => a < m
  | _ => true

def descWF (m : Nat) (d : Desc) : Bool :=
  (d.value.all (valWF m)) && (d.getv.all (valWF m))

def opWF (m : Nat) (op : Op) : Bool :=
  op.desc?.all (descWF m)

def objWF (m : Nat) : HObj → Bool
  | .cont c => (c.props.all (fun e => descWF m e.2)) && valWF m c.proto
  | .fac w => (w.client < m) && valWF m w.proto && (w.records.all (fun e => opWF m e.2))

def heapWF (h : Heap) : Bool :=
  h.all (objWF h.length)

/-! ### Observation helpers and concrete fixtures

The observers below only destructure materialization results for use in
theorem statements; the fixtures are the concrete containers, heaps and
workers at which claims are instantiated or refuted. -/

/-- Whether a materialization result is a freshly allocated container. -/
def isFreshM : Option MatVal → Bool
  | some (.fresh _ _ _) => true
  | _ => false

/-- The materialized value stored at a key of a freshly allocated
materialization result. -/
def mpropOf : Option MatVal → Key → Option MatVal
  | some (.fresh _ pr _), k => (pr.lookup k).bind (fun e => e.1)
  | _, _ => none

/-- A fully-permissive data descriptor, as produced by plain object
literals and by assignments. -/
def dataDesc (v : Val) : Desc :=
  { value := some v, writable := true, enumerable := true, configurable := true }

/-- The container {v: 1}. -/
def exA : ContData := { props := [("v", dataDesc (.prim (.int 1)))] }

/-- The container {v: 2}. -/
def exB : ContData := { props := [("v", dataDesc (.prim (.int 2)))] }

/-- The container {a: {v: 1}, b: {v: 2}} with a at address 0 and b at
address 1. -/
def exOrigin : ContData := { props := [("a", dataDesc (.ref 0)), ("b", dataDesc (.ref 1))] }

/-- Heap holding x = {a: {v: 1}, b: {v: 2}} at address 2. -/
def exHeap : Heap := [.cont exA, .cont exB, .cont exOrigin]

/-- exHeap after f = wrap(x); the Facade lives at address 3. -/
def exHeapW : Heap := (asMutable exHeap (.ref 2)).1

/-- exHeapW after reading f.a; the nested Facade over x.a lives at
address 4. -/
def exHeapRead : Heap := (applyFOp 5 exHeapW 3 (.read "a")).1

/-- The worker state behind the Facade of exHeapRead. -/
def exReadW : WorkerData :=
  { client := 2, proto := .prim .null, records := [("a", .get (dataDesc (.ref 4)))] }

/-- exHeapRead after f.a.v = 9 (a write through the nested Facade). -/
def exHeapWrite : Heap := (applyFOp 5 exHeapRead 4 (.write "v" (.prim (.int 9)))).1

/-- Heap holding only the container {v: 1}. -/
def exDelHeap : Heap := [.cont exA]

/-- A worker over {v: 1} whose log holds a Delete for key v. -/
def exDelW : WorkerData := { client := 0, proto := .prim .null, records := [("v", .del)] }

/-- A worker over {v: 1} whose log holds a Write for key v. -/
def exSetW : WorkerData :=
  { client := 0, proto := .prim .null, records := [("v", .set (dataDesc (.prim (.int 7))))] }

/-- A worker over {v: 1} with an empty log. -/
def exEmptyW : WorkerData := { client := 0, proto := .prim .null, records := [] }

/-- A worker over {v: 1} whose log holds a non-configurable Define for
key v. -/
def exNCW : WorkerData :=
  { client := 0, proto := .prim .null,
    records := [("v", .defp ({ value := some (.prim (.int 3)) } : Desc))] }

/-- An ancestor container {a: 2}. -/
def exProto : ContData := { props := [("a", dataDesc (.prim (.int 2)))] }

/-- A container with own key a whose prototype (address 0) also has a. -/
def exOwnA : ContData := { props := [("a", dataDesc (.prim (.int 1)))], proto := .ref 0 }

/-- Heap with the ancestor at address 0 and the origin at address 1. -/
def exHasHeap : Heap := [.cont exProto, .cont exOwnA]

/-- A worker over that origin whose log holds a Delete for key a,
with the prototype binding captured at wrap time. -/
def exHasDelW : WorkerData := { client := 1, proto := .ref 0, records := [("a", .del)] }

/-- A container whose only key k is an accessor property (no value
field) whose getter returns the container {v: 1} at address 0. -/
def exAcc : ContData :=
  { props := [("k", { getv := some (.ref 0), enumerable := true, configurable := true })] }

/-- Heap with the getter target at 0, the accessor container at 1, and a
Facade over it at 2. -/
def exAccHeap : Heap :=
  [.cont exA, .cont exAcc, .fac { client := 1, proto := .prim .null, records := [] }]

/-- The entry-level dirtiness test of the materializer: a logged entry
keeps the origin reusable only if it is a Read or Write whose buffered
value materializes to exactly the value the origin currently holds. -/
def entryDirty (gv : Val → Option MatVal) (jg : Key → Option Val) (e : Key × Op) : Bool :=
  match e.2 with
  | .del => true
  | .defp _ => true
  | .get d =>
    match jg e.1, gv (d.value.getD (.prim .undefined)) with
    | some ov, some nv => !(matEq nv ov)
    | _, _ => true
  | .set d =>
    match jg e.1, gv (d.value.getD (.prim .undefined)) with
    | some ov, some nv => !(matEq nv ov)
    | _, _ => true

/-- Two heaps agree on every cell below address N. -/
def agreeBelow (N : Nat) (h h2 : Heap) : Prop :=
  ∀ b, b < N → h[b]? = h2[b]?

/-- Every cell below address N references only addresses below N. -/
def boundedBelow (N : Nat) (h : Heap) : Prop :=
  ∀ b, b < N → ∀ o, h[b]? = some o → objWF N o = true

/-! ### Helper lemmas on heap cells -/

theorem getElem?_lt_of_some {h : Heap} {b : Nat} {x : HObj} (hx : h[b]? = some x) :
    b < h.length :=
  (List.getElem?_eq_some.mp hx).1

theorem append_preserves_cell {h l : Heap} {b : Nat} {x : HObj} (hx : h[b]? = some x) :
    (h ++ l)[b]? = some x := by
  rw [List.getElem?_append_left (getElem?_lt_of_some hx)]; exact hx

theorem set_preserves_cell_ne {h : Heap} {i b : Nat} {o : HObj} (hne : i ≠ b) :
    (h.set i o)[b]? = h[b]? :=
  List.getElem?_set_ne hne

theorem facAt_eq_some {h : Heap} {a : Addr} {w : WorkerData} :
    facAt h a = some w ↔ h[a]? = some (.fac w) := by
  unfold facAt
  cases hh : h[a]? with
  | none => simp
  | some o => cases o <;> simp

theorem contAt_eq_some {h : Heap} {a : Addr} {c : ContData} :
    contAt h a = some c ↔ h[a]? = some (.cont c) := by
  unfold contAt
  cases hh : h[a]? with
  | none => simp
  | some o => cases o <;> simp

theorem asMutable_preserves_cell {h : Heap} {v : Val} {b : Nat} {x : HObj}
    (hx : h[b]? = some x) : (asMutable h v).1[b]? = some x := by
  unfold asMutable
  split
  · exact hx
  · split
    · exact hx
    · split
      · exact append_preserves_cell hx
      · exact hx

theorem setWorker_preserves_cell {h : Heap} {a b : Nat} {wd : WorkerData} {x : HObj}
    (hab : a ≠ b) (hx : h[b]? = some x) : (setWorker h a wd)[b]? = some x := by
  unfold setWorker
  rw [set_preserves_cell_ne hab]
  exact hx

theorem workerGet_preserves_cell {n : Nat} {h : Heap} {w : WorkerData} {k : Key}
    {h1 : Heap} {w1 : WorkerData} {v : Val} (hg : workerGet n h w k = some (h1, w1, v))
    {b : Nat} {x : HObj} (hx : h[b]? = some x) : h1[b]? = some x := by
  unfold workerGet at hg
  split at hg
  · injection hg with hg; injection hg with h1eq _; subst h1eq; exact hx
  · split at hg
    · split at hg
      · rename_i d0 hd0
        split at hg
        next h2 v2 hp =>
          have hcell := asMutable_preserves_cell (v := contGetOwn d0) hx
          rw [hp] at hcell
          split at hg
          · injection hg with hg; injection hg with h1eq _; subst h1eq
            exact hcell
          · injection hg with hg; injection hg with h1eq _; subst h1eq
            exact hcell
      · split at hg
        · cases hj : jsGetF n h w.proto k with
          | none => rw [hj] at hg; simp at hg
          | some u =>
            rw [hj] at hg; simp at hg
            obtain ⟨h1eq, -, -⟩ := hg
            subst h1eq; exact hx
        · injection hg with hg; injection hg with h1eq _; subst h1eq; exact hx
    · exact absurd hg (by simp)

theorem applyFOp_preserves_cont {n : Nat} {h : Heap} {a : Addr} {op : FOp}
    {b : Nat} {c : ContData} (hb : h[b]? = some (.cont c)) :
    (applyFOp n h a op).1[b]? = some (.cont c) := by
  unfold applyFOp
  cases hfa : facAt h a with
  | none => simp only [hfa]; exact hb
  | some w =>
    have hab : a ≠ b := by
      intro he
      subst he
      rw [facAt_eq_some.mp hfa] at hb
      exact HObj.noConfusion (Option.some.inj hb)
    simp only [hfa]
    cases op with
    | read k =>
      cases hwg : workerGet n h w k with
      | none => simp only [hwg]; exact hb
      | some t =>
        obtain ⟨h1, w1, v⟩ := t
        simp only [hwg]
        exact setWorker_preserves_cell hab (workerGet_preserves_cell hwg hb)
    | write k v =>
      exact setWorker_preserves_cell hab (asMutable_preserves_cell hb)
    | delOp k =>
      exact setWorker_preserves_cell hab hb
    | defineOp k d =>
      cases hdp : definePropertyTrap h w k d with
      | error e => simp only [hdp]; exact hb
      | ok t =>
        obtain ⟨w1, bb⟩ := t
        simp only [hdp]
        exact setWorker_preserves_cell hab hb
    | hasOp k =>
      cases hwh : workerHas n h w k with
      | none => simp only [hwh]; exact hb
      | some bb => simp only [hwh]; exact hb
    | keysOp => exact hb
    | getProtoOp => exact hb
    | setProtoOp p =>
      exact setWorker_preserves_cell hab hb

theorem applySeq_preserves_cont {n : Nat} {seq : List (Addr × FOp)} {h : Heap}
    {b : Nat} {c : ContData} (hb : h[b]? = some (.cont c)) :
    (applySeq n seq h)[b]? = some (.cont c) := by
  induction seq generalizing h with
  | nil => exact hb
  | cons e rest ih => exact ih (applyFOp_preserves_cont hb)

/-- Claim C1: for every container x and every sequence of Facade
operations against wrap(x) (and against any nested Facade obtained
during the session), the origin container is never mutated in place:
every container cell of the heap, the origin included, still holds
exactly its original property list (keys, values and descriptors) and
prototype afterwards.  Operations write only to worker cells and
allocate fresh Facade cells; materialization (getValueF) is a pure
function of the heap and cannot write to it at all, returning fresh
structural copies where needed. -/
theorem origin_never_mutated (n : Nat) (h : Heap) (x : Val) (seq : List (Addr × FOp))
    (b : Addr) (c : ContData) (hb : h[b]? = some (.cont c)) :
    (applySeq n seq (asMutable h x).1)[b]? = some (.cont c) :=
  applySeq_preserves_cont (asMutable_preserves_cell hb)

/-- Witness for origin_never_mutated: the origin {a: {v: 1}, b: {v: 2}}
at address 2 is bit-for-bit unchanged after wrapping it and running a
session that reads f.a, writes through the nested Facade, deletes f.b
and enumerates f. -/
theorem origin_never_mutated_witness :
    exHeap[2]? = some (.cont exOrigin) ∧
      (applySeq 5 [(3, .read "a"), (4, .write "v" (.prim (.int 9))), (3, .delOp "b"), (3, .keysOp)]
        (asMutable exHeap (.ref 2)).1)[2]? = some (.cont exOrigin) :=
  ⟨rfl, origin_never_mutated 5 exHeap (.ref 2) _ 2 exOrigin rfl⟩

/-- Claim C9: wrap is idempotent.  Wrapping the result of any wrap call
again returns the identical reference with the heap unchanged, and an
already-wrapped value (one whose hidden capability tag resolves to a
worker cell) is returned unchanged without allocating, never
double-wrapped. -/
theorem wrap_idempotent (h : Heap) (x : Val) :
    asMutable (asMutable h x).1 (asMutable h x).2 = ((asMutable h x).1, (asMutable h x).2)
    ∧ (isMutableV h x = true → asMutable h x = (h, x)) := by
  constructor
  · cases x with
    | prim p => simp [asMutable, isDuplicable]
    | fn i => simp [asMutable, isDuplicable]
    | ref a =>
      by_cases him : isMutableV h (.ref a) = true
      · simp [asMutable, isDuplicable, him]
      · simp only [asMutable, isDuplicable, Bool.not_true, Bool.not_false, if_false,
          Bool.false_eq_true, him, if_true]
        have hfac : isMutableV (h ++ [.fac { client := a, proto := protoOf h a, records := [] }])
            (.ref h.length) = true := by
          simp [isMutableV, facAt]
        simp [him, hfac]
  · intro him
    cases x with
    | prim p => simp [isMutableV] at him
    | fn i => simp [isMutableV] at him
    | ref a => simp [asMutable, isDuplicable, him]

/-- Claim C3: structural sharing at the concrete example
x = {a: {v: 1}, b: {v: 2}} (addresses: x.a at 0, x.b at 1, x at 2, the
Facade f at 3, the nested Facade f.a at 4).  If f.a is read but never
written, unwrap(f) is reference-identical to x (address 2).  After
f.a.v = 9 (a different value than 1), unwrap(f) is a fresh container
whose b member is reference-identical to x.b (address 1) while its a
member is freshly allocated and hence identical to no pre-existing
reference, in particular not to x.a (address 0). -/
theorem structural_sharing :
    getValueF 5 exHeapRead (.ref 3) = some (.old (.ref 2))
    ∧ isFreshM (getValueF 5 exHeapWrite (.ref 3)) = true
    ∧ mpropOf (getValueF 5 exHeapWrite (.ref 3)) "b" = some (.old (.ref 1))
    ∧ isFreshM (mpropOf (getValueF 5 exHeapWrite (.ref 3)) "a") = true
    ∧ (∃ m, mpropOf (getValueF 5 exHeapWrite (.ref 3)) "a" = some m
        ∧ matEq m (.ref 0) = false) :=
  ⟨rfl, rfl, rfl, rfl, ⟨_, rfl, rfl⟩⟩

/-- Claim C4, failing input for im-mutable.ts: over the origin {v: 1}
with a single logged Write for the existing key v, ownKeys of the
im-mutable worker returns the key twice (once from the original-keys
loop and once from the records loop), while the claim requires it to
appear exactly once; the as-mutable worker returns it once.  (At the
language boundary the proxy invariant check turns the duplicated list
into a TypeError for every enumeration of such a Facade.) -/
theorem im_ownKeys_duplicates :
    imOwnKeys exDelHeap exSetW = ["v", "v"] ∧ workerOwnKeys exDelHeap exSetW = ["v"] :=
  ⟨rfl, rfl⟩

/-- Claim C5, failing input for im-mutable.ts: reading key v whose last
logged entry is a Delete destructures the stored descriptor, which is
undefined, and reads its value field, raising a TypeError; the claim
requires an absent value and no error.  The as-mutable worker returns
undefined as claimed. -/
theorem im_get_after_delete_raises :
    imWorkerGet 1 exDelHeap exDelW "v" = some (.error ())
    ∧ workerGet 1 exDelHeap exDelW "v" = some (exDelHeap, exDelW, .prim .undefined) :=
  ⟨rfl, rfl⟩

/-- Claim C6, failing input (both variants share this trap): defining a
brand-new key zz on a Facade over {v: 1}, and redefining key v after a
logged Delete, both read configurable from an absent effective
descriptor and raise a TypeError instead of succeeding as claimed. -/
theorem define_new_key_raises :
    definePropertyTrap exDelHeap exEmptyW "zz" (dataDesc (.prim (.int 3))) = .error ()
    ∧ definePropertyTrap exDelHeap exDelW "v" (dataDesc (.prim (.int 3))) = .error () :=
  ⟨rfl, rfl⟩

/-- Claim C8, failing input for im-mutable.ts: origin {a: 1} whose
ancestor {a: 2} also has key a, with a logged Delete for a.  The
ancestor chain has the key, so the claim requires has to be true (and
the as-mutable worker agrees), but the im-mutable worker computes
Reflect.has(client) and not own(client), which is false because the key
is still an own key of the untouched origin. -/
theorem im_has_after_delete_of_inherited_own :
    reflectHasF 3 exHasHeap (.ref 0) "a" = some true
    ∧ workerHas 3 exHasHeap exHasDelW "a" = some true
    ∧ imHas 3 exHasHeap exHasDelW "a" = some false :=
  ⟨rfl, rfl, rfl⟩

/-- Claim C7: deleteProperty resolves the effective descriptor; when it
is absent the call succeeds as a pure no-op; when it is non-configurable
the call fails and leaves the log (hence the key value and its
descriptor) untouched; otherwise it records a Delete and succeeds.
Shared verbatim by both variants. -/
theorem delete_semantics (h : Heap) (w : WorkerData) (k : Key) :
    (workerGOPD h w k = none → workerDel h w k = (w, true))
    ∧ (∀ d, workerGOPD h w k = some d → d.configurable = false →
        (workerDel h w k).2 = false ∧ (workerDel h w k).1 = w
          ∧ workerGOPD h (workerDel h w k).1 k = some d)
    ∧ (∀ d, workerGOPD h w k = some d → d.configurable = true →
        workerDel h w k = (addOp w k .del, true)) := by
  refine ⟨fun hd => ?_, fun d hd hc => ?_, fun d hd hc => ?_⟩
  · simp [workerDel, hd]
  · simp [workerDel, hd, hc]
  · simp [workerDel, hd, hc]

/-- Witness for delete_semantics: all three branches at concrete
workers over {v: 1}: delete of the absent key zz succeeds as a no-op;
delete of v after a non-configurable Define fails leaving the
descriptor in place; delete of the ordinary configurable key v records
a Delete and succeeds. -/
theorem delete_semantics_witness :
    workerDel exDelHeap exEmptyW "zz" = (exEmptyW, true)
    ∧ ((workerDel exDelHeap exNCW "v").2 = false ∧ (workerDel exDelHeap exNCW "v").1 = exNCW
        ∧ workerGOPD exDelHeap (workerDel exDelHeap exNCW "v").1 "v"
          = some ({ value := some (.prim (.int 3)) } : Desc))
    ∧ workerDel exDelHeap exEmptyW "v" = (addOp exEmptyW "v" .del, true) :=
  ⟨(delete_semantics exDelHeap exEmptyW "zz").1 rfl,
   (delete_semantics exDelHeap exNCW "v").2.1 _ rfl rfl,
   (delete_semantics exDelHeap exEmptyW "v").2.2 _ rfl rfl⟩

/-! ### The materializer returns the origin reference exactly on clean logs -/

theorem matEq_eq_true_iff {m : MatVal} {u : Val} : matEq m u = true ↔ m = .old u := by
  cases m <;> simp [matEq]

theorem matFold_mut_eq {gv : Val → Option MatVal} {jg : Key → Option Val} :
    ∀ (l : List (Key × Op)) (props : List (Key × Option MatVal × Desc)) (m : Bool)
      (props2 : List (Key × Option MatVal × Desc)) (m2 : Bool),
      matFold gv jg l (props, m) = some (props2, m2) →
      m2 = (m || l.any (entryDirty gv jg)) := by
  intro l
  induction l with
  | nil =>
    intro props m props2 m2 hrun
    simp only [matFold] at hrun
    injection hrun with hrun
    injection hrun with _ hm
    simp [hm.symm]
  | cons e rest ih =>
    intro props m props2 m2 hrun
    obtain ⟨k, op⟩ := e
    cases op with
    | del =>
      simp only [matFold] at hrun
      have := ih _ _ _ _ hrun
      simp [this, entryDirty]
    | defp d =>
      simp only [matFold] at hrun
      have := ih _ _ _ _ hrun
      simp [this, entryDirty]
    | get d =>
      simp only [matFold] at hrun
      cases hj : jg k with
      | none => rw [hj] at hrun; simp at hrun
      | some ov =>
        cases hg : gv (d.value.getD (.prim .undefined)) with
        | none => rw [hj, hg] at hrun; simp at hrun
        | some nv =>
          rw [hj, hg] at hrun
          have := ih _ _ _ _ hrun
          simp [this, entryDirty, hj, hg, Bool.or_assoc]
    | set d =>
      simp only [matFold] at hrun
      cases hj : jg k with
      | none => rw [hj] at hrun; simp at hrun
      | some ov =>
        cases hg : gv (d.value.getD (.prim .undefined)) with
        | none => rw [hj, hg] at hrun; simp at hrun
        | some nv =>
          rw [hj, hg] at hrun
          have := ih _ _ _ _ hrun
          simp [this, entryDirty, hj, hg, Bool.or_assoc]

theorem entryDirty_eq_false_iff (gv : Val → Option MatVal) (jg : Key → Option Val)
    (e : Key × Op) :
    entryDirty gv jg e = false ↔
      ∃ d, (e.2 = .get d ∨ e.2 = .set d)
        ∧ ∃ ov, jg e.1 = some ov ∧ gv (d.value.getD (.prim .undefined)) = some (.old ov) := by
  obtain ⟨k, op⟩ := e
  cases op with
  | del => simp [entryDirty]
  | defp d => simp [entryDirty]
  | get d =>
    simp only [entryDirty]
    cases hj : jg k with
    | none => simp [hj]
    | some ov =>
      cases hg : gv (d.value.getD (.prim .undefined)) with
      | none => simp [hj, hg]
      | some nv =>
        simp only [hj, hg, Bool.not_eq_false', matEq_eq_true_iff]
        constructor
        · rintro rfl
          exact ⟨d, Or.inl rfl, ov, rfl, hg⟩
        · rintro ⟨d2, hd2, ov2, hov2, hnv2⟩
          rcases hd2 with hd2 | hd2
          · cases hd2
            injection hov2 with hov2
            subst hov2
            rw [hg] at hnv2
            injection hnv2 with hnv2
          · cases hd2
  | set d =>
    simp only [entryDirty]
    cases hj : jg k with
    | none => simp [hj]
    | some ov =>
      cases hg : gv (d.value.getD (.prim .undefined)) with
      | none => simp [hj, hg]
      | some nv =>
        simp only [hj, hg, Bool.not_eq_false', matEq_eq_true_iff]
        constructor
        · rintro rfl
          exact ⟨d, Or.inr rfl, ov, rfl, hg⟩
        · rintro ⟨d2, hd2, ov2, hov2, hnv2⟩
          rcases hd2 with hd2 | hd2
          · cases hd2
          · cases hd2
            injection hov2 with hov2
            subst hov2
            rw [hg] at hnv2
            injection hnv2 with hnv2

/-- Claim C2: unwrap applied to a Facade returns the origin container by
reference in exactly two situations: when the log is empty, or when
every logged entry is a Read or Write whose buffered value materializes
to exactly the value the origin currently holds at that key (which in
particular excludes any Delete or Define entry); in every other case it
returns a freshly allocated container.  The empty-log disjunct makes the
non-empty qualification of the claim vacuous, so the statement is the
disjunction as claimed. -/
theorem unwrap_returns_origin_iff (n : Nat) (h : Heap) (a : Addr) (w : WorkerData)
    (r : MatVal) (hfac : facAt h a = some w)
    (hrun : getValueF (n + 1) h (.ref a) = some r) :
    (r = .old (.ref w.client) ↔
      (w.records = [] ∨ ∀ e ∈ w.records,
        ∃ d, (e.2 = .get d ∨ e.2 = .set d)
          ∧ ∃ ov, jsGetF n h (.ref w.client) e.1 = some ov
              ∧ getValueF n h (d.value.getD (.prim .undefined)) = some (.old ov)))
    ∧ (r = .old (.ref w.client)
        ∨ ∃ c pr, contAt h w.client = some c ∧ r = .fresh c.isArr pr w.proto) := by
  have hmut : isMutableV h (.ref a) = true := by simp [isMutableV, hfac]
  simp only [getValueF, hmut, Bool.not_true, Bool.false_eq_true, if_false, hfac] at hrun
  cases hc : contAt h w.client with
  | none => simp [hc] at hrun
  | some c =>
    simp only [hc] at hrun
    by_cases hemp : w.records.isEmpty = true
    · rw [if_pos hemp] at hrun
      injection hrun with hrun
      subst hrun
      refine ⟨⟨fun _ => Or.inl (List.isEmpty_iff.mp hemp), fun _ => rfl⟩, Or.inl rfl⟩
    · rw [if_neg hemp] at hrun
      cases hmf : matFold (getValueF n h) (jsGetF n h (.ref w.client)) w.records
          (spreadProps c, false) with
      | none => simp [hmf] at hrun
      | some st =>
        obtain ⟨props, mtd⟩ := st
        simp only [hmf] at hrun
        injection hrun with hrun
        have hm2 : mtd = w.records.any (entryDirty (getValueF n h) (jsGetF n h (.ref w.client))) := by
          simpa using matFold_mut_eq w.records (spreadProps c) false props mtd hmf
        have hnonempty : w.records ≠ [] := fun hh => hemp (by simp [hh])
        have hallclean : (w.records.any (entryDirty (getValueF n h) (jsGetF n h (.ref w.client)))
            = false) ↔ (∀ e ∈ w.records,
              ∃ d, (e.2 = .get d ∨ e.2 = .set d)
                ∧ ∃ ov, jsGetF n h (.ref w.client) e.1 = some ov
                    ∧ getValueF n h (d.value.getD (.prim .undefined)) = some (.old ov)) := by
          rw [List.any_eq_false]
          constructor
          · intro hall e he
            refine (entryDirty_eq_false_iff _ _ e).mp ?_
            cases hed : entryDirty (getValueF n h) (jsGetF n h (.ref w.client)) e
            · rfl
            · exact absurd hed (hall e he)
          · intro hall e he
            rw [(entryDirty_eq_false_iff _ _ e).mpr (hall e he)]
            exact Bool.false_ne_true
        cases hmtd : mtd with
        | false =>
          rw [hmtd] at hrun
          simp only [if_false, Bool.false_eq_true] at hrun
          subst hrun
          refine ⟨⟨fun _ => Or.inr (hallclean.mp (hmtd ▸ hm2.symm)), fun _ => rfl⟩, Or.inl rfl⟩
        | true =>
          rw [hmtd] at hrun
          simp only [if_true] at hrun
          subst hrun
          constructor
          · constructor
            · intro hcontra
              exact MatVal.noConfusion hcontra
            · intro hrhs
              rcases hrhs with hrhs | hrhs
              · exact absurd hrhs hnonempty
              · exfalso
                have : w.records.any (entryDirty (getValueF n h) (jsGetF n h (.ref w.client)))
                    = false := hallclean.mpr hrhs
                rw [← hm2, hmtd] at this
                exact Bool.noConfusion this
          · exact Or.inr ⟨c, props, rfl, rfl⟩

/-- Witness for unwrap_returns_origin_iff at the Facade of exHeapRead
(one logged Read whose cached child materializes back to the original
member): the instantiated equivalence and shape disjunction. -/
theorem unwrap_returns_origin_iff_witness :
    (MatVal.old (.ref 2) = MatVal.old (.ref exReadW.client) ↔
      (exReadW.records = [] ∨ ∀ e ∈ exReadW.records,
        ∃ d, (e.2 = .get d ∨ e.2 = .set d)
          ∧ ∃ ov, jsGetF 4 exHeapRead (.ref exReadW.client) e.1 = some ov
              ∧ getValueF 4 exHeapRead (d.value.getD (.prim .undefined)) = some (.old ov)))
    ∧ (MatVal.old (.ref 2) = MatVal.old (.ref exReadW.client)
        ∨ ∃ c pr, contAt exHeapRead exReadW.client = some c
            ∧ MatVal.old (.ref 2) = .fresh c.isArr pr exReadW.proto) :=
  unwrap_returns_origin_iff 4 exHeapRead 3 exReadW (.old (.ref 2)) rfl rfl

/-! ### Stability of reads under heap extension

Facade operations only ever modify the targeted worker cell and allocate
fresh cells at the top of the heap; the lemmas below show that reads and
materialization of values living in the untouched lower region cannot
observe such changes. -/

theorem heapWF_bounded {h : Heap} (hwf : heapWF h = true) : boundedBelow h.length h := by
  intro b _ o hb
  exact List.all_eq_true.mp hwf o (List.getElem?_mem hb)

theorem valWF_ref_lt {N : Nat} {a : Addr} (hv : valWF N (.ref a) = true) : a < N := by
  simpa [valWF] using hv

theorem descWF_value_wf {N : Nat} {d : Desc} (hd : descWF N d = true) :
    valWF N (d.value.getD (.prim .undefined)) = true := by
  cases hdv : d.value with
  | none => simp [hdv, valWF]
  | some u =>
    have hu := hd
    simp only [descWF, hdv, Bool.and_eq_true, Option.all_some] at hu
    simp [hdv, hu.1]

theorem jsGetF_stable {N : Nat} {h h2 : Heap} (hag : agreeBelow N h h2)
    (hbd : boundedBelow N h) :
    ∀ (n : Nat) (v : Val), valWF N v = true → ∀ k, jsGetF n h v k = jsGetF n h2 v k := by
  intro n
  induction n with
  | zero => intro v _ k; rfl
  | succ n ih =>
    intro v hv k
    cases v with
    | prim p => rfl
    | fn i => rfl
    | ref a =>
      have ha : a < N := valWF_ref_lt hv
      have heq := hag a ha
      simp only [jsGetF, ← heq]
      cases hha : h[a]? with
      | none => rfl
      | some o =>
        cases o with
        | fac w => rfl
        | cont c =>
          cases hd : c.desc? k with
          | some d => simp [hd]
          | none =>
            have hobj := hbd a ha _ hha
            have hproto : valWF N c.proto = true := by
              have hobj2 := hobj
              simp only [objWF, Bool.and_eq_true] at hobj2
              exact hobj2.2
            simp only [hd]
            exact ih c.proto hproto k

theorem matFold_congr {gv gv2 : Val → Option MatVal} {jg jg2 : Key → Option Val} :
    ∀ (l : List (Key × Op)) (st : List (Key × Option MatVal × Desc) × Bool),
      (∀ e ∈ l, jg e.1 = jg2 e.1 ∧
        ∀ d, e.2.desc? = some d →
          gv (d.value.getD (.prim .undefined)) = gv2 (d.value.getD (.prim .undefined))) →
      matFold gv jg l st = matFold gv2 jg2 l st := by
  intro l
  induction l with
  | nil => intro st _; rfl
  | cons e rest ih =>
    intro st hcong
    obtain ⟨k, op⟩ := e
    obtain ⟨props, m⟩ := st
    have hk := (hcong (k, op) (List.mem_cons_self _ _)).1
    have hrest := fun e he => hcong e (List.mem_cons_of_mem _ he)
    cases op with
    | del => simp only [matFold]; exact ih _ hrest
    | defp d => simp only [matFold]; exact ih _ hrest
    | get d =>
      have hd := (hcong (k, .get d) (List.mem_cons_self _ _)).2 d rfl
      simp only [matFold, ← hk, ← hd]
      cases jg k with
      | none => rfl
      | some ov =>
        cases gv (d.value.getD (.prim .undefined)) with
        | none => rfl
        | some nv => exact ih _ hrest
    | set d =>
      have hd := (hcong (k, .set d) (List.mem_cons_self _ _)).2 d rfl
      simp only [matFold, ← hk, ← hd]
      cases jg k with
      | none => rfl
      | some ov =>
        cases gv (d.value.getD (.prim .undefined)) with
        | none => rfl
        | some nv => exact ih _ hrest

theorem getValueF_stable {N : Nat} {h h2 : Heap} (hag : agreeBelow N h h2)
    (hbd : boundedBelow N h) :
    ∀ (n : Nat) (v : Val), valWF N v = true → getValueF n h v = getValueF n h2 v := by
  intro n
  induction n with
  | zero => intro v _; rfl
  | succ n ih =>
    intro v hv
    cases v with
    | prim p => rfl
    | fn i => rfl
    | ref a =>
      have ha : a < N := valWF_ref_lt hv
      have heq := hag a ha
      simp only [getValueF, isMutableV, facAt, ← heq]
      cases hha : h[a]? with
      | none => rfl
      | some o =>
        cases o with
        | cont c => rfl
        | fac w =>
          have hobj := hbd a ha _ hha
          have hobj2 := hobj
          simp only [objWF, Bool.and_eq_true, decide_eq_true_eq, List.all_eq_true] at hobj2
          obtain ⟨⟨hclient, -⟩, hrecwf⟩ := hobj2
          have heqc := hag w.client hclient
          simp only [contAt, ← heqc]
          cases hhc : h[w.client]? with
          | none => rfl
          | some oc =>
            cases oc with
            | fac w2 => rfl
            | cont c =>
              by_cases hemp : w.records.isEmpty = true
              · simp [hemp]
              · simp only [hemp, if_false, Bool.false_eq_true]
                have hfold : matFold (getValueF n h) (jsGetF n h (.ref w.client)) w.records
                    (spreadProps c, false)
                    = matFold (getValueF n h2) (jsGetF n h2 (.ref w.client)) w.records
                    (spreadProps c, false) := by
                  apply matFold_congr
                  intro e he
                  constructor
                  · exact jsGetF_stable hag hbd n (.ref w.client) (by simpa [valWF] using hclient) e.1
                  · intro d hdsc
                    have hopwf := hrecwf e he
                    have hdwf : descWF N d = true := by
                      unfold opWF at hopwf
                      rw [hdsc] at hopwf
                      simpa using hopwf
                    exact ih (d.value.getD (.prim .undefined)) (descWF_value_wf hdwf)
                rw [hfold]

theorem cont_fac_ne {h : Heap} {a b : Addr} {w : WorkerData} {c : ContData}
    (hfa : facAt h a = some w) (hcb : contAt h b = some c) : a ≠ b := by
  intro he
  subst he
  have h1 := facAt_eq_some.mp hfa
  have h2 := contAt_eq_some.mp hcb
  rw [h1] at h2
  exact HObj.noConfusion (Option.some.inj h2)

theorem facAt_none_of_cont {h : Heap} {b : Addr} {c : ContData}
    (hcb : contAt h b = some c) : facAt h b = none := by
  rw [facAt, contAt_eq_some.mp hcb]

theorem asMutable_length_ge (h : Heap) (v : Val) : h.length ≤ (asMutable h v).1.length := by
  unfold asMutable
  split
  · exact Nat.le_refl _
  · split
    · exact Nat.le_refl _
    · split
      · simp
      · exact Nat.le_refl _

theorem asMutable_frame {h : Heap} {v : Val} {b : Nat} (hb : b < h.length) :
    (asMutable h v).1[b]? = h[b]? := by
  unfold asMutable
  split
  · rfl
  · split
    · rfl
    · split
      · exact List.getElem?_append_left hb
      · rfl

theorem workerGet_length_ge {n : Nat} {h : Heap} {w : WorkerData} {k : Key}
    {h1 : Heap} {w1 : WorkerData} {v : Val} (hg : workerGet n h w k = some (h1, w1, v)) :
    h.length ≤ h1.length := by
  unfold workerGet at hg
  split at hg
  · injection hg with hg; injection hg with h1eq _; subst h1eq; exact Nat.le_refl _
  · split at hg
    · split at hg
      · rename_i d0 hd0
        split at hg
        next h2 v2 hp =>
          have hlen := asMutable_length_ge h (contGetOwn d0)
          rw [hp] at hlen
          split at hg
          · injection hg with hg; injection hg with h1eq _; subst h1eq; exact hlen
          · injection hg with hg; injection hg with h1eq _; subst h1eq; exact hlen
      · split at hg
        · cases hj : jsGetF n h w.proto k with
          | none => rw [hj] at hg; simp at hg
          | some u =>
            rw [hj] at hg; simp at hg
            obtain ⟨h1eq, -, -⟩ := hg
            subst h1eq; exact Nat.le_refl _
        · injection hg with hg; injection hg with h1eq _; subst h1eq; exact Nat.le_refl _
    · exact absurd hg (by simp)

theorem workerGet_frame {n : Nat} {h : Heap} {w : WorkerData} {k : Key}
    {h1 : Heap} {w1 : WorkerData} {v : Val} (hg : workerGet n h w k = some (h1, w1, v))
    {b : Nat} (hb : b < h.length) : h1[b]? = h[b]? := by
  unfold workerGet at hg
  split at hg
  · injection hg with hg; injection hg with h1eq _; subst h1eq; rfl
  · split at hg
    · split at hg
      · rename_i d0 hd0
        split at hg
        next h2 v2 hp =>
          have hfr := asMutable_frame (v := contGetOwn d0) hb
          rw [hp] at hfr
          split at hg
          · injection hg with hg; injection hg with h1eq _; subst h1eq; exact hfr
          · injection hg with hg; injection hg with h1eq _; subst h1eq; exact hfr
      · split at hg
        · cases hj : jsGetF n h w.proto k with
          | none => rw [hj] at hg; simp at hg
          | some u =>
            rw [hj] at hg; simp at hg
            obtain ⟨h1eq, -, -⟩ := hg
            subst h1eq; rfl
        · injection hg with hg; injection hg with h1eq _; subst h1eq; rfl
    · exact absurd hg (by simp)

theorem applyFOp_length_ge (n : Nat) (h : Heap) (a : Addr) (op : FOp) :
    h.length ≤ (applyFOp n h a op).1.length := by
  unfold applyFOp
  cases hfa : facAt h a with
  | none => simp
  | some w =>
    simp only [hfa]
    cases op with
    | read k =>
      cases hwg : workerGet n h w k with
      | none => simp [hwg]
      | some t =>
        obtain ⟨h1, w1, v⟩ := t
        simp only [hwg, setWorker]
        rw [List.length_set]
        exact workerGet_length_ge hwg
    | write k v =>
      simp only [workerSet, setWorker]
      rw [List.length_set]
      exact asMutable_length_ge h v
    | delOp k => simp [setWorker]
    | defineOp k d =>
      cases hdp : definePropertyTrap h w k d with
      | error e => simp [hdp]
      | ok t =>
        obtain ⟨w1, bb⟩ := t
        simp [hdp, setWorker]
    | hasOp k =>
      cases hwh : workerHas n h w k with
      | none => simp [hwh]
      | some bb => simp [hwh]
    | keysOp => simp
    | getProtoOp => simp
    | setProtoOp p => simp [setWorker]

theorem applyFOp_frame {n : Nat} {h : Heap} {a : Addr} {op : FOp} {b : Nat}
    (hb : b < h.length) (hab : a ≠ b) : (applyFOp n h a op).1[b]? = h[b]? := by
  unfold applyFOp
  cases hfa : facAt h a with
  | none => simp
  | some w =>
    simp only [hfa]
    cases op with
    | read k =>
      cases hwg : workerGet n h w k with
      | none => simp [hwg]
      | some t =>
        obtain ⟨h1, w1, v⟩ := t
        simp only [hwg, setWorker]
        rw [List.getElem?_set_ne hab]
        exact workerGet_frame hwg hb
    | write k v =>
      simp only [workerSet, setWorker]
      rw [List.getElem?_set_ne hab]
      exact asMutable_frame hb
    | delOp k =>
      simp only [setWorker]
      exact List.getElem?_set_ne hab
    | defineOp k d =>
      cases hdp : definePropertyTrap h w k d with
      | error e => simp [hdp]
      | ok t =>
        obtain ⟨w1, bb⟩ := t
        simp only [hdp, setWorker]
        exact List.getElem?_set_ne hab
    | hasOp k =>
      cases hwh : workerHas n h w k with
      | none => simp [hwh]
      | some bb => simp [hwh]
    | keysOp => simp
    | getProtoOp => simp
    | setProtoOp p =>
      simp only [setWorker]
      exact List.getElem?_set_ne hab

theorem applySeq_frame_ge {n : Nat} (N : Nat) :
    ∀ (seq : List (Addr × FOp)) (h : Heap), (∀ e ∈ seq, N ≤ e.1) → N ≤ h.length →
      ∀ b, b < N → (applySeq n seq h)[b]? = h[b]? := by
  intro seq
  induction seq with
  | nil => intro h _ _ b _; rfl
  | cons e rest ih =>
    intro h hN hlen b hbN
    obtain ⟨a, op⟩ := e
    have haN : N ≤ a := hN (a, op) (List.mem_cons_self _ _)
    have hab : a ≠ b := fun he => absurd (he ▸ haN) (Nat.not_le.mpr hbN)
    have hframe : (applyFOp n h a op).1[b]? = h[b]? :=
      applyFOp_frame (Nat.lt_of_lt_of_le hbN hlen) hab
    have hlen2 : N ≤ (applyFOp n h a op).1.length :=
      Nat.le_trans hlen (applyFOp_length_ge n h a op)
    have := ih (applyFOp n h a op).1 (fun e2 he2 => hN e2 (List.mem_cons_of_mem _ he2)) hlen2 b hbN
    simpa [applySeq, hframe] using this

/-- Claim C10: for an own key of the origin whose descriptor has no
value field (an accessor property), a read through the Facade wraps the
getter result in a brand-new Facade but records no Read operation: the
worker cell is written back unchanged.  Consequently repeated reads of
that key return Facades at distinct fresh addresses rather than a cached
identity, and a session of arbitrary operations aimed at fresh addresses
(in particular, any mutations through those returned Facades) leaves the
materialization of the original Facade exactly what it was before. -/
theorem accessor_read_not_cached
    (n : Nat) (h : Heap) (a g : Addr) (w : WorkerData) (c : ContData) (cg : ContData)
    (k : Key) (d : Desc)
    (hwf : heapWF h = true)
    (hfac : facAt h a = some w)
    (hc : contAt h w.client = some c)
    (hd : c.desc? k = some d)
    (hval : d.value = none)
    (hget : d.getv = some (.ref g))
    (hg : contAt h g = some cg)
    (hq : query w k = none) :
    applyFOp n h a (.read k)
      = ((h ++ [HObj.fac { client := g, proto := cg.proto, records := [] }]).set a (HObj.fac w),
         .val (.ref h.length))
    ∧ (applyFOp n (applyFOp n h a (.read k)).1 a (.read k)).2 = .val (.ref (h.length + 1))
    ∧ (Val.ref h.length ≠ Val.ref (h.length + 1))
    ∧ (∀ seq : List (Addr × FOp), (∀ e ∈ seq, h.length ≤ e.1) →
        ∀ m, getValueF m (applySeq n seq (applyFOp n h a (.read k)).1) (.ref a)
          = getValueF m h (.ref a)) := by
  have halt : a < h.length := getElem?_lt_of_some (facAt_eq_some.mp hfac)
  have hglt : g < h.length := getElem?_lt_of_some (contAt_eq_some.mp hg)
  have hclt : w.client < h.length := getElem?_lt_of_some (contAt_eq_some.mp hc)
  have hcg : contGetOwn d = .ref g := by simp [contGetOwn, hval, hget]
  have hmg : isMutableV h (.ref g) = false := by
    simp [isMutableV, facAt_none_of_cont hg]
  have hasm : asMutable h (.ref g)
      = (h ++ [HObj.fac { client := g, proto := cg.proto, records := [] }], .ref h.length) := by
    simp [asMutable, isDuplicable, hmg, protoOf, hg]
  have hwg : workerGet n h w k
      = some (h ++ [HObj.fac { client := g, proto := cg.proto, records := [] }], w, .ref h.length) := by
    simp [workerGet, hq, hc, hd, hcg, hasm, hval]
  have hstep1 : applyFOp n h a (.read k)
      = ((h ++ [HObj.fac { client := g, proto := cg.proto, records := [] }]).set a (HObj.fac w),
         .val (.ref h.length)) := by
    simp [applyFOp, hfac, hwg, setWorker]
  have hlen1 : ((h ++ [HObj.fac { client := g, proto := cg.proto, records := [] }]).set a
      (HObj.fac w)).length = h.length + 1 := by simp
  have hfa2 : facAt ((h ++ [HObj.fac { client := g, proto := cg.proto, records := [] }]).set a
      (HObj.fac w)) a = some w := by
    rw [facAt_eq_some]
    exact List.getElem?_set_self (by simp [Nat.lt_succ_of_lt halt])
  have hagree : agreeBelow h.length h
      ((h ++ [HObj.fac { client := g, proto := cg.proto, records := [] }]).set a (HObj.fac w)) := by
    intro b hb
    by_cases hba : b = a
    · subst hba
      rw [facAt_eq_some.mp hfac]
      exact (List.getElem?_set_self (by simp [Nat.lt_succ_of_lt hb])).symm
    · rw [List.getElem?_set_ne (fun he => hba he.symm),
        List.getElem?_append_left hb]
  have hc2 : contAt ((h ++ [HObj.fac { client := g, proto := cg.proto, records := [] }]).set a
      (HObj.fac w)) w.client = some c := by
    rw [contAt_eq_some, ← hagree w.client hclt]
    exact contAt_eq_some.mp hc
  have hg2 : contAt ((h ++ [HObj.fac { client := g, proto := cg.proto, records := [] }]).set a
      (HObj.fac w)) g = some cg := by
    rw [contAt_eq_some, ← hagree g hglt]
    exact contAt_eq_some.mp hg
  have hmg2 : isMutableV ((h ++ [HObj.fac { client := g, proto := cg.proto, records := [] }]).set a
      (HObj.fac w)) (.ref g) = false := by
    simp [isMutableV, facAt_none_of_cont hg2]
  have hasm2 : asMutable ((h ++ [HObj.fac { client := g, proto := cg.proto, records := [] }]).set a
      (HObj.fac w)) (.ref g)
      = (((h ++ [HObj.fac { client := g, proto := cg.proto, records := [] }]).set a (HObj.fac w))
          ++ [HObj.fac { client := g, proto := cg.proto, records := [] }], .ref (h.length + 1)) := by
    simp [asMutable, isDuplicable, hmg2, protoOf, hg2, hlen1]
  have hwg2 : workerGet n ((h ++ [HObj.fac { client := g, proto := cg.proto, records := [] }]).set a
      (HObj.fac w)) w k
      = some (((h ++ [HObj.fac { client := g, proto := cg.proto, records := [] }]).set a (HObj.fac w))
          ++ [HObj.fac { client := g, proto := cg.proto, records := [] }], w, .ref (h.length + 1)) := by
    simp [workerGet, hq, hc2, hd, hcg, hasm2, hval]
  refine ⟨hstep1, ?_, by simp, ?_⟩
  · rw [hstep1]
    simp [applyFOp, hfa2, hwg2]
  · intro seq hseq m
    rw [hstep1]
    have hbd := heapWF_bounded hwf
    have hframe := applySeq_frame_ge (n := n) h.length seq
      ((h ++ [HObj.fac { client := g, proto := cg.proto, records := [] }]).set a (HObj.fac w))
      hseq (by rw [hlen1]; exact Nat.le_succ _)
    have hagree2 : agreeBelow h.length h
        (applySeq n seq
          ((h ++ [HObj.fac { client := g, proto := cg.proto, records := [] }]).set a (HObj.fac w))) :=
      fun b hb => (hagree b hb).trans (hframe b hb).symm
    exact (getValueF_stable hagree2 hbd m (.ref a) (by simp [valWF, halt])).symm

/-- Witness for accessor_read_not_cached at the concrete heap with
origin {k: accessor returning the container at address 0} wrapped at
address 2: the first read returns a Facade at address 3, the second a
distinct Facade at address 4, and any following operations aimed at the
fresh addresses leave unwrap of the original Facade unchanged. -/
theorem accessor_read_not_cached_witness :
    applyFOp 1 exAccHeap 2 (.read "k")
      = ((exAccHeap ++ [HObj.fac { client := 0, proto := exA.proto, records := [] }]).set 2
          (HObj.fac { client := 1, proto := Val.prim .null, records := [] }),
         .val (.ref exAccHeap.length))
    ∧ (applyFOp 1 (applyFOp 1 exAccHeap 2 (.read "k")).1 2 (.read "k")).2
        = .val (.ref (exAccHeap.length + 1))
    ∧ (Val.ref exAccHeap.length ≠ Val.ref (exAccHeap.length + 1))
    ∧ (∀ seq : List (Addr × FOp), (∀ e ∈ seq, exAccHeap.length ≤ e.1) →
        ∀ m, getValueF m (applySeq 1 seq (applyFOp 1 exAccHeap 2 (.read "k")).1) (.ref 2)
          = getValueF m exAccHeap (.ref 2)) :=
  accessor_read_not_cached 1 exAccHeap 2 0
    { client := 1, proto := .prim .null, records := [] } exAcc exA "k"
    { getv := some (.ref 0), enumerable := true, configurable := true }
    rfl rfl rfl rfl rfl rfl rfl rfl

/-- The as-mutable worker yields undefined, and records nothing, when
reading a key whose last logged entry is a Delete (the positive half of
claim C5, which the im-mutable variant violates). -/
theorem get_after_delete_yields_undef (n : Nat) (h : Heap) (w : WorkerData) (k : Key)
    (hq : query w k = some .del) : workerGet n h w k = some (h, w, .prim .undefined) := by
  simp [workerGet, hq, Op.desc?]

/-- Witness for get_after_delete_yields_undef at the worker over {v: 1}
with a logged Delete for v. -/
theorem get_after_delete_yields_undef_witness :
    workerGet 3 exDelHeap exDelW "v" = some (exDelHeap, exDelW, .prim .undefined) :=
  get_after_delete_yields_undef 3 exDelHeap exDelW "v" rfl

/-- The as-mutable worker implements has exactly as claim C8 states it
(the im-mutable variant violates the Delete clause): a Delete entry
defers to the ancestor-chain binding alone, any other entry answers
true, and an unlogged key answers true exactly when the origin owns the
key or the ancestor chain has it. -/
theorem has_semantics (n : Nat) (h : Heap) (w : WorkerData) (k : Key) :
    (query w k = some .del → workerHas n h w k = reflectHasF n h w.proto k)
    ∧ (∀ op, query w k = some op → op.isDel = false → workerHas n h w k = some true)
    ∧ (query w k = none → ∀ b, reflectHasF n h w.proto k = some b →
        workerHas n h w k
          = some ((((contAt h w.client).bind (fun c => c.desc? k)).isSome) || b)) := by
  refine ⟨fun hq => ?_, fun op hq hop => ?_, fun hq b hb => ?_⟩
  · simp [workerHas, hq, Op.isDel]
  · simp [workerHas, hq, hop]
  · simp [workerHas, hq, hb]

/-- Witness for has_semantics: all three clauses at concrete workers
over the origin {a: 1} whose ancestor {a: 2} also has key a. -/
theorem has_semantics_witness :
    (workerHas 3 exHasHeap exHasDelW "a" = reflectHasF 3 exHasHeap exHasDelW.proto "a")
    ∧ (workerHas 3 exHasHeap
        { client := 1, proto := .ref 0, records := [("a", .set (dataDesc (.prim (.int 5))))] } "a"
        = some true)
    ∧ (workerHas 3 exHasHeap { client := 1, proto := .ref 0, records := [] } "b"
        = some ((((contAt exHasHeap 1).bind (fun c => c.desc? "b")).isSome) || false)) :=
  ⟨(has_semantics 3 exHasHeap exHasDelW "a").1 rfl,
   (has_semantics 3 exHasHeap
      { client := 1, proto := .ref 0, records := [("a", .set (dataDesc (.prim (.int 5))))] }
      "a").2.1 _ rfl rfl,
   (has_semantics 3 exHasHeap { client := 1, proto := .ref 0, records := [] } "b").2.2
      rfl false rfl⟩

/-- Witness for wrap_idempotent: wrapping {a: {v: 1}, b: {v: 2}} twice
from the concrete heap, and the already-wrapped detection at the Facade
of exHeapW. -/
theorem wrap_idempotent_witness :
    (asMutable (asMutable exHeap (.ref 2)).1 (asMutable exHeap (.ref 2)).2
        = ((asMutable exHeap (.ref 2)).1, (asMutable exHeap (.ref 2)).2))
    ∧ (isMutableV exHeapW (.ref 3) = true ∧ asMutable exHeapW (.ref 3) = (exHeapW, .ref 3)) :=
  ⟨(wrap_idempotent exHeap (.ref 2)).1,
   rfl, (wrap_idempotent exHeapW (.ref 3)).2 rfl⟩


/-! ### The as-mutable ownKeys returns origin order with log edits applied -/

theorem lookup_eq_none_of_not_mem_keys {β : Type} {l : List (Key × β)} {k : Key}
    (hk : k ∉ l.map Prod.fst) : l.lookup k = none := by
  induction l with
  | nil => rfl
  | cons e rest ih =>
    obtain ⟨k0, b0⟩ := e
    have hk0 : (k == k0) = false := beq_false_of_ne (fun he => hk (by simp [he]))
    have hrest : k ∉ rest.map Prod.fst := fun hm => hk (by simp [hm])
    simp [List.lookup, hk0, ih hrest]

/-- The last-operation test for a key unaffected by a leading log entry
with a different key. -/
theorem keep_cons_ne {rest : List (Key × Op)} {k x : Key} (hxk : x ≠ k) (op : Op) :
    (match ((k, op) :: rest).lookup x with
      | some op2 => !op2.isDel
      | none => true)
    = (match rest.lookup x with
      | some op2 => !op2.isDel
      | none => true) := by
  simp [List.lookup, beq_false_of_ne hxk]

theorem contains_eq_of_mem_iff {acc acc2 : List Key} {x : Key}
    (hiff : x ∈ acc2 ↔ x ∈ acc) : acc2.contains x = acc.contains x := by
  by_cases hm : x ∈ acc
  · have h1 : acc2.contains x = true := List.elem_iff.mpr (hiff.mpr hm)
    have h2 : acc.contains x = true := List.elem_iff.mpr hm
    rw [h1, h2]
  · have h1 : acc2.contains x = false := by
      rw [← Bool.not_eq_true]
      intro hcon
      exact hm (hiff.mp (List.elem_iff.mp hcon))
    have h2 : acc.contains x = false := by
      rw [← Bool.not_eq_true]
      intro hcon
      exact hm (List.elem_iff.mp hcon)
    rw [h1, h2]

theorem filter_of_erase {acc : List Key} (hnd : acc.Nodup) (k : Key) (p : Key → Bool) :
    (acc.erase k).filter p = acc.filter (fun x => !(x == k) && p x) := by
  induction acc with
  | nil => rfl
  | cons x xs ih =>
    by_cases hxk : x = k
    · subst hxk
      rw [List.erase_cons_head]
      have hnotin : x ∉ xs := (List.nodup_cons.mp hnd).1
      have hcong : xs.filter (fun y => !(y == x) && p y) = xs.filter p := by
        apply List.filter_congr
        intro y hy
        have hyx : ¬(y = x) := fun he => hnotin (he ▸ hy)
        simp [beq_false_of_ne hyx]
      simp [hcong]
    · rw [List.erase_cons_tail]
      · simp only [List.filter_cons]
        rw [ih (List.nodup_cons.mp hnd).2]
        have hx : (!(x == k) && p x) = p x := by simp [beq_false_of_ne hxk]
        rw [hx]
      · simp [hxk]

/-- The non-Delete step of the ownKeys fold, already applied to the
accumulator: add the key to the ordered set, keeping its position if
already present, then continue with the rest of the log. -/
theorem ownKeysFold_spec_nondel (rest : List (Key × Op)) (k : Key) (op : Op)
    (hopnd : op.isDel = false)
    (ih : ∀ (acc : List Key), acc.Nodup → (rest.map Prod.fst).Nodup →
      (rest.foldl (fun acc2 e => match e.2 with
          | Op.del => acc2.erase e.1
          | _ => if acc2.contains e.1 then acc2 else acc2 ++ [e.1]) acc)
        = acc.filter (fun k2 => match rest.lookup k2 with
            | some op2 => !op2.isDel
            | none => true)
          ++ (rest.filter (fun e => !e.2.isDel && !acc.contains e.1)).map Prod.fst)
    (acc : List Key) (hacc : acc.Nodup)
    (hknotin : k ∉ rest.map Prod.fst) (hrestnd : (rest.map Prod.fst).Nodup)
    (hlookrest : rest.lookup k = none) :
    (rest.foldl (fun acc2 e => match e.2 with
        | Op.del => acc2.erase e.1
        | _ => if acc2.contains e.1 then acc2 else acc2 ++ [e.1])
      (if acc.contains k then acc else acc ++ [k]))
      = acc.filter (fun k2 => match ((k, op) :: rest).lookup k2 with
          | some op2 => !op2.isDel
          | none => true)
        ++ (((k, op) :: rest).filter (fun e => !e.2.isDel && !acc.contains e.1)).map Prod.fst := by
  have hfil : acc.filter (fun k2 => match rest.lookup k2 with
        | some op2 => !op2.isDel
        | none => true)
      = acc.filter (fun k2 => match ((k, op) :: rest).lookup k2 with
        | some op2 => !op2.isDel
        | none => true) := by
    apply List.filter_congr
    intro x hx
    by_cases hxk : x = k
    · subst hxk
      simp [List.lookup, hlookrest, hopnd]
    · rw [keep_cons_ne hxk]
  by_cases hin : acc.contains k = true
  · rw [if_pos hin]
    rw [ih acc hacc hrestnd]
    have hcond : (!op.isDel && !acc.contains k) = false := by
      rw [hin]
      simp
    have hhead : ((k, op) :: rest).filter (fun e => !e.2.isDel && !acc.contains e.1)
        = rest.filter (fun e => !e.2.isDel && !acc.contains e.1) := by
      simp only [List.filter_cons]
      rw [hcond]
      simp
    rw [hfil, hhead]
  · rw [if_neg hin]
    have hknacc : k ∉ acc := fun hm => hin (List.elem_iff.mpr hm)
    have hacc2 : (acc ++ [k]).Nodup := by
      rw [List.nodup_append]
      exact ⟨hacc, List.nodup_singleton k, by simpa using hknacc⟩
    rw [ih (acc ++ [k]) hacc2 hrestnd]
    rw [List.filter_append]
    have hsing : [k].filter (fun k2 => match rest.lookup k2 with
          | some op2 => !op2.isDel
          | none => true) = [k] := by
      simp [List.filter_cons, hlookrest]
    have hfil2 : rest.filter (fun e => !e.2.isDel && !(acc ++ [k]).contains e.1)
        = rest.filter (fun e => !e.2.isDel && !acc.contains e.1) := by
      apply List.filter_congr
      intro e2 he2
      have hne : e2.1 ≠ k := fun he => hknotin (he ▸ List.mem_map_of_mem Prod.fst he2)
      have hiff : e2.1 ∈ acc ++ [k] ↔ e2.1 ∈ acc := by
        simp [hne]
      rw [contains_eq_of_mem_iff hiff]
    have hinf : acc.contains k = false := by
      rw [← Bool.not_eq_true]
      exact hin
    have hcond : (!op.isDel && !acc.contains k) = true := by
      rw [hopnd, hinf]
      simp
    have hhead : ((k, op) :: rest).filter (fun e => !e.2.isDel && !acc.contains e.1)
        = (k, op) :: rest.filter (fun e => !e.2.isDel && !acc.contains e.1) := by
      simp only [List.filter_cons]
      rw [hcond]
      simp
    rw [hsing, hfil, hfil2, hhead]
    simp [List.append_assoc]

theorem ownKeysFold_spec :
    ∀ (l : List (Key × Op)) (acc : List Key), acc.Nodup → (l.map Prod.fst).Nodup →
      (l.foldl (fun acc2 e => match e.2 with
          | Op.del => acc2.erase e.1
          | _ => if acc2.contains e.1 then acc2 else acc2 ++ [e.1]) acc)
        = acc.filter (fun k => match l.lookup k with
            | some op => !op.isDel
            | none => true)
          ++ (l.filter (fun e => !e.2.isDel && !acc.contains e.1)).map Prod.fst := by
  intro l
  induction l with
  | nil => intro acc _ _; simp
  | cons e rest ih =>
    intro acc hacc hkeys
    obtain ⟨k, op⟩ := e
    have hknotin : k ∉ rest.map Prod.fst := (List.nodup_cons.mp hkeys).1
    have hrestnd : (rest.map Prod.fst).Nodup := (List.nodup_cons.mp hkeys).2
    have hlookrest : rest.lookup k = none := lookup_eq_none_of_not_mem_keys hknotin
    cases op with
    | del =>
      simp only [List.foldl_cons]
      rw [ih (acc.erase k) (hacc.erase k) hrestnd]
      have hfil : (acc.erase k).filter (fun k2 => match rest.lookup k2 with
            | some op2 => !op2.isDel
            | none => true)
          = acc.filter (fun k2 => match ((k, Op.del) :: rest).lookup k2 with
            | some op2 => !op2.isDel
            | none => true) := by
        rw [filter_of_erase hacc]
        apply List.filter_congr
        intro x hx
        by_cases hxk : x = k
        · subst hxk
          simp [List.lookup, Op.isDel]
        · rw [keep_cons_ne hxk]
          simp [beq_false_of_ne hxk]
      have hfil2 : rest.filter (fun e2 => !e2.2.isDel && !(acc.erase k).contains e2.1)
          = rest.filter (fun e2 => !e2.2.isDel && !acc.contains e2.1) := by
        apply List.filter_congr
        intro e2 he2
        have hne : e2.1 ≠ k := fun he => hknotin (he ▸ List.mem_map_of_mem Prod.fst he2)
        rw [contains_eq_of_mem_iff (List.mem_erase_of_ne hne)]
      have hhead : ((k, Op.del) :: rest).filter (fun e2 => !e2.2.isDel && !acc.contains e2.1)
          = rest.filter (fun e2 => !e2.2.isDel && !acc.contains e2.1) := by
        simp [List.filter_cons, Op.isDel]
      rw [hfil, hfil2, hhead]
    | get d =>
      simp only [List.foldl_cons]
      exact ownKeysFold_spec_nondel rest k (.get d) rfl ih acc hacc hknotin hrestnd hlookrest
    | set d =>
      simp only [List.foldl_cons]
      exact ownKeysFold_spec_nondel rest k (.set d) rfl ih acc hacc hknotin hrestnd hlookrest
    | defp d =>
      simp only [List.foldl_cons]
      exact ownKeysFold_spec_nondel rest k (.defp d) rfl ih acc hacc hknotin hrestnd hlookrest

/-- The as-mutable worker implements listOwnKeys exactly as claim C4
states it (the im-mutable variant violates the no-duplicates clause):
the origin own keys in origin order with keys whose last logged entry is
a Delete removed, followed by the keys introduced purely via the log in
log encounter order, and the result has no duplicates, a key both
original and logged appearing once at its original position. -/
theorem ownKeys_semantics (h : Heap) (w : WorkerData) (c : ContData)
    (hc : contAt h w.client = some c)
    (hond : (c.props.map Prod.fst).Nodup)
    (hrnd : (w.records.map Prod.fst).Nodup) :
    workerOwnKeys h w
      = (c.props.map Prod.fst).filter (fun k => match w.records.lookup k with
          | some op => !op.isDel
          | none => true)
        ++ (w.records.filter
            (fun e => !e.2.isDel && !(c.props.map Prod.fst).contains e.1)).map Prod.fst
    ∧ (workerOwnKeys h w).Nodup := by
  have hunfold : workerOwnKeys h w
      = w.records.foldl (fun acc2 e => match e.2 with
          | Op.del => acc2.erase e.1
          | _ => if acc2.contains e.1 then acc2 else acc2 ++ [e.1])
        (c.props.map Prod.fst) := by
    simp only [workerOwnKeys, hc]
  have heq : workerOwnKeys h w
      = (c.props.map Prod.fst).filter (fun k => match w.records.lookup k with
          | some op => !op.isDel
          | none => true)
        ++ (w.records.filter
            (fun e => !e.2.isDel && !(c.props.map Prod.fst).contains e.1)).map Prod.fst := by
    rw [hunfold]
    exact ownKeysFold_spec w.records (c.props.map Prod.fst) hond hrnd
  refine ⟨heq, ?_⟩
  rw [heq, List.nodup_append]
  refine ⟨hond.filter _, ?_, ?_⟩
  · exact hrnd.sublist ((List.filter_sublist _).map Prod.fst)
  · intro a ha hb
    have hamem : a ∈ c.props.map Prod.fst := (List.mem_filter.mp ha).1
    obtain ⟨e2, he2, hfst⟩ := List.mem_map.mp hb
    have hcond := (List.mem_filter.mp he2).2
    have hnc : (c.props.map Prod.fst).contains e2.1 = false := by
      cases hcc : (c.props.map Prod.fst).contains e2.1 with
      | false => rfl
      | true =>
        rw [hcc] at hcond
        simp at hcond
    have : e2.1 ∉ c.props.map Prod.fst := by
      intro hm
      have hcn : (c.props.map Prod.fst).contains e2.1 = true := List.elem_iff.mpr hm
      exact Bool.noConfusion (hcn.symm.trans hnc)
    exact this (hfst ▸ hamem)
